import Mathlib

/-
Shallow embedding of the decoding control layer in
src/llama/src/main/cpp/llama-android.cpp (chunked batch decoding, handle
registries, completion initialization, the per-token generation loop, the
partial-UTF-8 text accumulator, and batch allocation).

Modelling conventions:
* Opaque native handles (llama_context*, llama_batch*, llama_sampler*) are
  modelled as `Nat`, wrapped in `Option` so that `none` is the null pointer.
* The two mutex-guarded registry maps (g_ctx_n_ctx / g_ctx_n_batch and
  g_batch_n_tokens) are modelled as the `Registries` structure of partial
  maps; a lookup under the mutex is a plain function application.
* Engine calls are oracles: `live_n_ctx` is llama_n_ctx, `rc` gives the
  return code of the k-th llama_decode call of one operation, `sampled` is
  llama_sampler_sample, `piece` is common_token_to_piece.
* C `int` values are modelled as `Int`; sizes of in-memory vectors as `Nat`.
-/

/-- One record appended to a llama_batch by common_batch_add:
token id, absolute position, sequence ids, emit-logits flag. -/
structure BatchRec where
  token : Int
  pos : Int
  seqIds : List Int
  logits : Bool
deriving DecidableEq, Repr

/-- The registry maps of llama-android.cpp (lines 63-70): per-context
registered n_ctx and n_batch, and per-batch registered n_tokens capacity.
`none` means the handle has no entry in that map. -/
structure Registries where
  ctx_n_ctx : Nat → Option Int
  ctx_n_batch : Nat → Option Int
  batch_n_tokens : Nat → Option Int

/-- Registries with no entries at all. -/
def emptyRegs : Registries :=
  ⟨fun _ => none, fun _ => none, fun _ => none⟩

/-- get_ctx_limits (lines 169-183): start from the live llama_n_ctx value
(0 for a null handle), override with registered values when present, then
substitute the defaults 512 (n_batch) and 1024 (n_ctx) for non-positive
results.  Returns (out_n_ctx, out_n_batch). -/
def get_ctx_limits (live_n_ctx : Nat → Int) (R : Registries) (ctx : Option Nat) : Int × Int :=
  let c0 : Int := match ctx with
    | none => 0
    | some h => live_n_ctx h
  let cb : Int × Int := match ctx with
    | none => (c0, 0)
    | some h => ((R.ctx_n_ctx h).getD c0, (R.ctx_n_batch h).getD 0)
  let b2 : Int := if cb.2 ≤ 0 then 512 else cb.2
  let c2 : Int := if cb.1 ≤ 0 then 1024 else cb.1
  (c2, b2)

/-- get_batch_capacity (lines 162-167): registered n_tokens of the batch,
0 for a null or unregistered handle. -/
def get_batch_capacity (R : Registries) (batch : Option Nat) : Int :=
  match batch with
  | none => 0
  | some h => (R.batch_n_tokens h).getD 0

/-- The chunk capacity computed at line 205:
max(1, min(n_batch_ctx, batch_cap > 0 ? batch_cap : n_batch_ctx)). -/
def chunk_cap (n_batch_ctx batch_cap : Int) : Int :=
  max 1 (min n_batch_ctx (if batch_cap > 0 then batch_cap else n_batch_ctx))

/-- The record the chunked decoder emits for global token index `j`
(token tokens[j], position pos0+j, sequence id {0}, logits set only on the
very last token when requested).  Used to state what the loop produces. -/
def chunkRecAt (tokens : List Int) (pos0 : Int) (want : Bool) (j : Nat) : BatchRec :=
  ⟨tokens.getD j 0, pos0 + (j : Int), [0], want && decide (j + 1 = tokens.length)⟩

/-- The while-loop of decode_tokens_chunked (lines 207-228).  `done` is the
count of tokens already consumed, `k` numbers the llama_decode calls, and
`fuel` bounds the iteration count (`tokens.length` always suffices since
every chunk takes at least one token).  Returns the list of batch contents
submitted to llama_decode, one entry per call in order, and the success
flag; on a non-zero decode return code the loop aborts after the failing
call exactly as the C code does. -/
def decode_go (cap : Nat) (tokens : List Int) (pos0 : Int) (want : Bool) (rc : Nat → Int) :
    Nat → Nat → Nat → List (List BatchRec) × Bool
  | 0, _, _ => ([], true)
  | fuel + 1, done, k =>
    if done < tokens.length then
      let tk := min cap (tokens.length - done)
      let setLast := want && decide (done + tk = tokens.length)
      let recs := (List.range tk).map fun i =>
        (⟨tokens.getD (done + i) 0, pos0 + ((done + i : Nat) : Int), [0],
          setLast && decide (i + 1 = tk)⟩ : BatchRec)
      if rc k ≠ 0 then ([recs], false)
      else
        let r := decode_go cap tokens pos0 want rc fuel (done + tk) (k + 1)
        (recs :: r.1, r.2)
    else ([], true)

/-- decode_tokens_chunked (lines 191-231): null handles fail immediately,
an empty token list trivially succeeds with no decode call, otherwise the
chunk capacity is resolved from the registries and the chunk loop runs
starting at position pos0. -/
def decode_tokens_chunked (live_n_ctx : Nat → Int) (R : Registries) (ctx batch : Option Nat)
    (tokens : List Int) (pos0 : Int) (want_logits_last_token : Bool) (rc : Nat → Int) :
    List (List BatchRec) × Bool :=
  match ctx, batch with
  | some _, some _ =>
    if tokens.isEmpty then ([], true)
    else
      let lims := get_ctx_limits live_n_ctx R ctx
      let batch_cap := get_batch_capacity R batch
      let cap := (chunk_cap lims.2 batch_cap).toNat
      decode_go cap tokens pos0 want_logits_last_token rc tokens.length 0 0
  | _, _ => ([], false)

/-- The prompt budget of completion_init (lines 538-539):
max_prompt = n_ctx - n_len - 8, and if that is below 64 it becomes
max(64, n_ctx - 64). -/
def max_prompt (n_ctx n_len : Int) : Int :=
  if n_ctx - n_len - 8 < 64 then max 64 (n_ctx - 64) else n_ctx - n_len - 8

/-- The prompt trim of completion_init (lines 541-544): when the tokenized
prompt is longer than max_prompt, erase the leading tokens and keep only
the trailing max_prompt ones. -/
def trim_tokens (n_ctx n_len : Int) (tokens : List Int) : List Int :=
  let mp := max_prompt n_ctx n_len
  if (tokens.length : Int) > mp then tokens.drop (tokens.length - mp.toNat) else tokens

/-- completion_init (lines 510-559), from the point where the prompt is
already tokenized (`tokens` is the output of common_tokenize).  Null
context/batch throw and return 0; otherwise the prompt is trimmed against
the live llama_n_ctx value, decoded in chunks from position 0 with logits
requested on the last token, and the retained token count is returned, or
0 when the chunked decode fails. -/
def completion_init (live_n_ctx : Nat → Int) (R : Registries) (ctx batch : Option Nat)
    (tokens : List Int) (n_len : Int) (rc : Nat → Int) : Int :=
  match ctx, batch with
  | some c, some b =>
    let n_ctx := live_n_ctx c
    let toks := trim_tokens n_ctx n_len tokens
    if (decode_tokens_chunked live_n_ctx R (some c) (some b) toks 0 true rc).2
    then (toks.length : Int)
    else 0
  | _, _ => 0

/-- Lead-byte classification of is_valid_utf8 (lines 79-83): the number of
continuation bytes a lead byte demands, or `none` for a byte that is not a
legal lead byte (C `num` is this value plus one). -/
def u8cls (b : Nat) : Option Nat :=
  if b &&& 0x80 == 0x00 then some 0
  else if b &&& 0xE0 == 0xC0 then some 1
  else if b &&& 0xF0 == 0xE0 then some 2
  else if b &&& 0xF8 == 0xF0 then some 3
  else none

/-- The scanning loop of is_valid_utf8 (lines 78-90) over the bytes of the
C string.  `k` is the number of continuation bytes still expected.  With
k = 0 the loop is at a lead position: the 0x00 terminator stops the scan
with success, otherwise the lead byte is classified; with k > 0 the next
byte must be a continuation byte 10xxxxxx (the terminator fails this test,
matching the C code reading the final NUL inside the inner loop). -/
def iv_aux : Nat → List Nat → Bool
  | 0, [] => true
  | 0, b :: rest =>
    if b == 0 then true
    else
      match u8cls b with
      | some m => iv_aux m rest
      | none => false
  | _ + 1, [] => false
  | k + 1, b :: rest => if b &&& 0xC0 == 0x80 then iv_aux k rest else false

/-- is_valid_utf8 (lines 72-92) on the byte list of the accumulated string
(a byte equal to 0 acts as the C string terminator). -/
def is_valid_utf8 (l : List Nat) : Bool :=
  iv_aux 0 l

/-- Helper for reasoning about NUL-free byte strings: the same scanner
without the special terminator case, i.e. plain structural UTF-8 validity.
Coincides with `iv_aux` on lists that do not contain the byte 0. -/
def ok_aux : Nat → List Nat → Bool
  | 0, [] => true
  | 0, b :: rest =>
    match u8cls b with
    | some m => ok_aux m rest
    | none => false
  | _ + 1, [] => false
  | k + 1, b :: rest => if b &&& 0xC0 == 0x80 then ok_aux k rest else false

/-- Structural UTF-8 validity (no terminator semantics). -/
def utf8_ok (l : List Nat) : Bool :=
  ok_aux 0 l

/-- The partial-text accumulator protocol of completion_loop
(lines 609-618) applied to a list of raw token-piece fragments: each
fragment is appended to the pending buffer; if the buffer then passes
is_valid_utf8 the whole buffer is emitted and cleared, otherwise an empty
fragment is emitted and the buffer is retained.  Returns the list of
emitted fragments in order and the final pending buffer. -/
def runAcc : List Nat → List (List Nat) → List (List Nat) × List Nat
  | buf, [] => ([], buf)
  | buf, f :: fs =>
    if is_valid_utf8 (buf ++ f) then
      let r := runAcc [] fs
      ((buf ++ f) :: r.1, r.2)
    else
      let r := runAcc (buf ++ f) fs
      (([] : List Nat) :: r.1, r.2)

/-- The state completion_loop touches outside the engine: the externally
held generation cursor (the IntVar n_cur) and the pending-text buffer
cached_token_chars. -/
structure LoopState where
  n_cur : Int
  cached : List Nat
deriving DecidableEq, Repr

/-- completion_loop (lines 563-634).  Oracles: n_ctx is llama_n_ctx of the
context, is_eog is llama_token_is_eog, eot is llama_token_eot, sampled is
the token llama_sampler_sample returns, piece its common_token_to_piece
bytes, rc the llama_decode return code.  Null handles (including the JNI
reflection failures on the cursor object) return null without touching
state; an out-of-range cursor or a stop condition (EOG token, cursor equal
to n_len, EOT token) returns null without touching state; otherwise the
piece is appended to the buffer, the UTF-8-complete buffer (or an empty
string) becomes the produced fragment, the cursor is incremented, the
single-token decode runs, and a non-zero return code yields null with the
state already advanced. -/
def completion_loop (n_ctx : Int) (is_eog : Int → Bool) (eot sampled : Int)
    (piece : Int → List Nat) (rc : Int) (ctx batch sampler ivar : Option Nat)
    (n_len : Int) (st : LoopState) : Option (List Nat) × LoopState :=
  match ctx, batch, sampler, ivar with
  | some _, some _, some _, some _ =>
    if st.n_cur < 0 ∨ st.n_cur ≥ n_ctx then (none, st)
    else if is_eog sampled ∨ st.n_cur = n_len ∨ sampled = eot then (none, st)
    else
      let cached1 := st.cached ++ piece sampled
      let out := if is_valid_utf8 cached1 then cached1 else []
      let cached2 := if is_valid_utf8 cached1 then ([] : List Nat) else cached1
      let st2 : LoopState := ⟨st.n_cur + 1, cached2⟩
      if rc ≠ 0 then (none, st2) else (some out, st2)
  | _, _, _, _ => (none, st)

/-- The per-token seq_id allocation loop of new_batch (lines 418-421):
`idx` is the next malloc number, `count` the remaining iterations, `live`
the malloc numbers that succeeded so far.  Stops at the first failing
malloc, returning the successes untouched (the C code frees nothing
here). -/
def alloc_loop (ok : Nat → Bool) : Nat → Nat → List Nat → Bool × List Nat
  | _, 0, live => (true, live)
  | idx, count + 1, live =>
    if ok idx then alloc_loop ok (idx + 1) count (live ++ [idx]) else (false, live)

/-- new_batch (lines 385-433).  `ok i` tells whether the i-th malloc of
this call succeeds; mallocs are numbered in program order: 0 the token or
embedding buffer, 1 the position buffer, 2 the per-token sequence-count
buffer, 3 the seq_id pointer array, 4 .. 3+n_tokens the per-token seq_id
sub-arrays, 4+n_tokens the logits buffer.  Returns (result, live, reg):
`result` is `some ()` on success and `none` on invalid arguments or on an
allocation failure (the OutOfMemoryError path, which only deletes the
batch struct itself), `live` the malloc numbers still allocated when the
call returns, and `reg` whether a registry entry for the batch was made. -/
def new_batch (ok : Nat → Bool) (n_tokens embd n_seq_max : Int) :
    Option Unit × List Nat × Bool :=
  if n_tokens ≤ 0 ∨ n_seq_max ≤ 0 then (none, [], false)
  else if ¬ ok 0 then (none, [], false)
  else if ¬ ok 1 then (none, [0], false)
  else if ¬ ok 2 then (none, [0, 1], false)
  else if ¬ ok 3 then (none, [0, 1, 2], false)
  else
    match alloc_loop ok 4 n_tokens.toNat [0, 1, 2, 3] with
    | (false, live) => (none, live, false)
    | (true, live) =>
      if ¬ ok (4 + n_tokens.toNat) then (none, live, false)
      else (some (), live ++ [4 + n_tokens.toNat], true)

/-- Ceiling-division step: removing one full-or-final chunk of size
min cap r from r remaining tokens lowers the chunk count by one. -/
lemma ceil_step (cap r : Nat) (hc : 0 < cap) (hr : 0 < r) :
    (r - min cap r + cap - 1) / cap + 1 = (r + cap - 1) / cap := by
  rcases le_total r cap with h | h
  · have h1 : (r - min cap r + cap - 1) / cap = 0 := by
      apply Nat.div_eq_of_lt
      omega
    have h2 : (r + cap - 1) / cap = 1 := by
      apply Nat.div_eq_of_lt_le
      · omega
      · omega
    rw [h1, h2]
  · have e1 : r - min cap r + cap - 1 = r - 1 := by omega
    have e2 : r + cap - 1 = (r - 1) + cap := by omega
    rw [e1, e2, Nat.add_div_right _ hc]

/-- A fueled chunk loop past the end of the tokens does nothing. -/
lemma decode_go_done (cap : Nat) (tokens : List Int) (pos0 : Int) (want : Bool)
    (rc : Nat → Int) (fuel done k : Nat) (h : ¬ done < tokens.length) :
    decode_go cap tokens pos0 want rc fuel done k = ([], true) := by
  cases fuel with
  | zero => simp [decode_go]
  | succ fuel => simp [decode_go, h]

/-- With every decode call succeeding, the chunk loop succeeds and issues
exactly ceil(remaining / cap) calls. -/
lemma decode_go_count (cap : Nat) (tokens : List Int) (pos0 : Int) (want : Bool)
    (rc : Nat → Int) (hc : 0 < cap) (hrc : ∀ k, rc k = 0) :
    ∀ fuel done k, tokens.length - done ≤ fuel →
      (decode_go cap tokens pos0 want rc fuel done k).2 = true ∧
      (decode_go cap tokens pos0 want rc fuel done k).1.length
        = (tokens.length - done + cap - 1) / cap := by
  intro fuel
  induction fuel with
  | zero =>
    intro done k h
    have hdone : tokens.length - done = 0 := Nat.le_zero.mp h
    have hz : (tokens.length - done + cap - 1) / cap = 0 := by
      rw [hdone]
      apply Nat.div_eq_of_lt
      omega
    rw [hz]
    simp [decode_go]
  | succ fuel ih =>
    intro done k h
    by_cases hd : done < tokens.length
    · have hstep := ih (done + min cap (tokens.length - done)) (k + 1) (by omega)
      simp only [decode_go, hd, if_true, hrc k, ne_eq, not_true_eq_false, if_false,
        ite_false, reduceIte]
      refine ⟨hstep.1, ?_⟩
      rw [List.length_cons, hstep.2]
      have := ceil_step cap (tokens.length - done) hc (by omega)
      have e : tokens.length - (done + min cap (tokens.length - done))
          = tokens.length - done - min cap (tokens.length - done) := by omega
      rw [e]
      omega
    · rw [decode_go_done cap tokens pos0 want rc (fuel + 1) done k hd]
      have hdone : tokens.length - done = 0 := by omega
      have hz : (tokens.length - done + cap - 1) / cap = 0 := by
        rw [hdone]
        apply Nat.div_eq_of_lt
        omega
      rw [hz]
      simp

/-- Every chunk the loop submits is non-empty and holds at most cap
records (this needs no assumption on the decode return codes). -/
lemma decode_go_sizes (cap : Nat) (tokens : List Int) (pos0 : Int) (want : Bool)
    (rc : Nat → Int) (hc : 0 < cap) :
    ∀ fuel done k, ∀ ch ∈ (decode_go cap tokens pos0 want rc fuel done k).1,
      1 ≤ ch.length ∧ ch.length ≤ cap := by
  intro fuel
  induction fuel with
  | zero =>
    intro done k ch hch
    simp [decode_go] at hch
  | succ fuel ih =>
    intro done k ch hch
    by_cases hd : done < tokens.length
    · by_cases hrck : rc k = 0
      · simp only [decode_go, hd, if_true, hrck, ne_eq, not_true_eq_false, reduceIte,
          List.mem_cons] at hch
        rcases hch with hch | hch
        · subst hch
          simp only [List.length_map, List.length_range]
          omega
        · exact ih (done + min cap (tokens.length - done)) (k + 1) ch hch
      · simp only [decode_go, hd, if_true, ne_eq, hrck, not_false_eq_true, reduceIte,
          List.mem_singleton] at hch
        subst hch
        simp only [List.length_map, List.length_range]
        omega
    · rw [decode_go_done cap tokens pos0 want rc (fuel + 1) done k hd] at hch
      simp at hch

/-- With every decode call succeeding, the records submitted across all
chunks, flattened in emission order, are exactly the records of
`chunkRecAt` for the global indices done, done+1, ..., length-1. -/
lemma decode_go_flatten (cap : Nat) (tokens : List Int) (pos0 : Int) (want : Bool)
    (rc : Nat → Int) (hc : 0 < cap) (hrc : ∀ k, rc k = 0) :
    ∀ fuel done k, tokens.length - done ≤ fuel →
      (decode_go cap tokens pos0 want rc fuel done k).1.flatten
        = (List.range (tokens.length - done)).map
            (fun i => chunkRecAt tokens pos0 want (done + i)) := by
  intro fuel
  induction fuel with
  | zero =>
    intro done k h
    have hdone : tokens.length - done = 0 := Nat.le_zero.mp h
    rw [hdone]
    simp [decode_go]
  | succ fuel ih =>
    intro done k h
    by_cases hd : done < tokens.length
    · simp only [decode_go, hd, if_true, hrc k, ne_eq, not_true_eq_false, reduceIte]
      rw [List.flatten_cons]
      rw [ih (done + min cap (tokens.length - done)) (k + 1) (by omega)]
      set tk := min cap (tokens.length - done) with htk
      set rest := tokens.length - (done + tk) with hrest
      have hsplit : tokens.length - done = tk + rest := by omega
      rw [hsplit, List.range_add, List.map_append, List.map_map]
      congr 1
      · apply List.map_congr_left
        intro i hi
        rw [List.mem_range] at hi
        unfold chunkRecAt
        congr 1
        rw [Bool.and_assoc]
        congr 1
        rw [← Bool.decide_and]
        rw [decide_eq_decide]
        omega
      · apply List.map_congr_left
        intro i hi
        simp only [Function.comp]
        congr 1
        omega
    · rw [decode_go_done cap tokens pos0 want rc (fuel + 1) done k hd]
      have hdone : tokens.length - done = 0 := by omega
      rw [hdone]
      simp

/-- The chunk capacity of line 205 is at least one. -/
lemma chunk_cap_ge_one (a b : Int) : 1 ≤ chunk_cap a b :=
  le_max_left ..

/-- The chunk capacity of line 205, as a Nat, is positive. -/
lemma chunk_cap_toNat_pos (a b : Int) : 0 < (chunk_cap a b).toNat := by
  have := chunk_cap_ge_one a b
  omega

/-- For live handles and a non-empty token list, decode_tokens_chunked is
the chunk loop at the capacity resolved from the registries. -/
lemma decode_chunked_eq (live : Nat → Int) (R : Registries) (c b : Nat)
    (tokens : List Int) (pos0 : Int) (want : Bool) (rc : Nat → Int) (hne : tokens ≠ []) :
    decode_tokens_chunked live R (some c) (some b) tokens pos0 want rc
      = decode_go ((chunk_cap (get_ctx_limits live R (some c)).2
            (get_batch_capacity R (some b))).toNat)
          tokens pos0 want rc tokens.length 0 0 := by
  simp [decode_tokens_chunked, List.isEmpty_iff, hne]

/-- With every decode call succeeding, decode_tokens_chunked on live
handles succeeds. -/
lemma decode_chunked_ok (live : Nat → Int) (R : Registries) (c b : Nat)
    (tokens : List Int) (pos0 : Int) (want : Bool) (rc : Nat → Int)
    (hrc : ∀ k, rc k = 0) :
    (decode_tokens_chunked live R (some c) (some b) tokens pos0 want rc).2 = true := by
  by_cases hne : tokens = []
  · subst hne
    simp [decode_tokens_chunked]
  · rw [decode_chunked_eq live R c b tokens pos0 want rc hne]
    exact (decode_go_count _ tokens pos0 want rc (chunk_cap_toNat_pos _ _) hrc
      tokens.length 0 0 (by omega)).1

/-- C1: for every pair of live context and batch handles, every token
sequence and every run in which each engine decode call succeeds,
decode_tokens_chunked succeeds and issues exactly ceil(n / chunkSize)
engine decode calls, each carrying at most chunkSize token records, where
chunkSize = max(1, min(maxBatchTokens, batchCapacity when positive else
maxBatchTokens)) with maxBatchTokens and batchCapacity resolved from the
handle registries; an empty token sequence succeeds with zero calls. -/
theorem C1_chunk_schedule (live : Nat → Int) (R : Registries) (c b : Nat)
    (tokens : List Int) (pos0 : Int) (want : Bool) (rc : Nat → Int)
    (hrc : ∀ k, rc k = 0) :
    (decode_tokens_chunked live R (some c) (some b) tokens pos0 want rc).2 = true ∧
    (decode_tokens_chunked live R (some c) (some b) tokens pos0 want rc).1.length
      = (tokens.length + (chunk_cap (get_ctx_limits live R (some c)).2
            (get_batch_capacity R (some b))).toNat - 1)
        / (chunk_cap (get_ctx_limits live R (some c)).2
            (get_batch_capacity R (some b))).toNat ∧
    (∀ ch ∈ (decode_tokens_chunked live R (some c) (some b) tokens pos0 want rc).1,
      (ch.length : Int) ≤ chunk_cap (get_ctx_limits live R (some c)).2
        (get_batch_capacity R (some b))) ∧
    (tokens = [] →
      decode_tokens_chunked live R (some c) (some b) tokens pos0 want rc = ([], true)) := by
  set A := (get_ctx_limits live R (some c)).2 with hA
  set B := get_batch_capacity R (some b) with hB
  have hcap : 0 < (chunk_cap A B).toNat := chunk_cap_toNat_pos A B
  have hcast : ((chunk_cap A B).toNat : Int) = chunk_cap A B := by
    have := chunk_cap_ge_one A B
    omega
  by_cases hne : tokens = []
  · subst hne
    refine ⟨by simp [decode_tokens_chunked], ?_, by simp [decode_tokens_chunked], fun _ => by
      simp [decode_tokens_chunked]⟩
    have hz : (List.length ([] : List Int) + (chunk_cap A B).toNat - 1)
        / (chunk_cap A B).toNat = 0 := by
      apply Nat.div_eq_of_lt
      simp only [List.length_nil]
      omega
    rw [hz]
    simp [decode_tokens_chunked]
  · rw [decode_chunked_eq live R c b tokens pos0 want rc hne]
    have hcount := decode_go_count _ tokens pos0 want rc hcap hrc tokens.length 0 0 (by omega)
    have hsizes := decode_go_sizes _ tokens pos0 want rc hcap tokens.length 0 0
    refine ⟨hcount.1, ?_, ?_, fun h => absurd h hne⟩
    · rw [hcount.2]
      simp
    · intro ch hch
      have := (hsizes ch hch).2
      omega

/-- Witness for C1 at a concrete input: registered maxBatchTokens 2 and
batch capacity 5 give chunkSize 2, so five tokens need three calls. -/
theorem C1_chunk_schedule_witness :
    (decode_tokens_chunked (fun _ => 1024) ⟨fun _ => none, fun _ => some 2, fun _ => some 5⟩
      (some 0) (some 1) [10, 11, 12, 13, 14] 7 true (fun _ => 0)).2 = true ∧
    (decode_tokens_chunked (fun _ => 1024) ⟨fun _ => none, fun _ => some 2, fun _ => some 5⟩
      (some 0) (some 1) [10, 11, 12, 13, 14] 7 true (fun _ => 0)).1.length = 3 := by
  have h := C1_chunk_schedule (fun _ => 1024) ⟨fun _ => none, fun _ => some 2, fun _ => some 5⟩
    0 1 [10, 11, 12, 13, 14] 7 true (fun _ => 0) (fun _ => rfl)
  exact ⟨h.1, h.2.1.trans (by decide)⟩

/-- C2: across all chunks of one decode_tokens_chunked call starting at
pos0 over n tokens, with every engine call succeeding, the emitted
positions in emission order are exactly pos0, pos0+1, ..., pos0+n-1. -/
theorem C2_positions (live : Nat → Int) (R : Registries) (c b : Nat)
    (tokens : List Int) (pos0 : Int) (want : Bool) (rc : Nat → Int)
    (hrc : ∀ k, rc k = 0) :
    ((decode_tokens_chunked live R (some c) (some b) tokens pos0 want rc).1.flatten.map
        (fun r => r.pos))
      = (List.range tokens.length).map (fun i : Nat => pos0 + (i : Int)) := by
  by_cases hne : tokens = []
  · subst hne
    simp [decode_tokens_chunked]
  · rw [decode_chunked_eq live R c b tokens pos0 want rc hne]
    rw [decode_go_flatten _ tokens pos0 want rc (chunk_cap_toNat_pos _ _) hrc
      tokens.length 0 0 (by omega)]
    simp only [Nat.sub_zero, List.map_map]
    apply List.map_congr_left
    intro i hi
    simp [chunkRecAt, Function.comp]

/-- Witness for C2 at a concrete input: five tokens from position 7 are
emitted at positions 7..11. -/
theorem C2_positions_witness :
    ((decode_tokens_chunked (fun _ => 1024) ⟨fun _ => none, fun _ => some 2, fun _ => some 5⟩
        (some 0) (some 1) [10, 11, 12, 13, 14] 7 true (fun _ => 0)).1.flatten.map
      (fun r => r.pos)) = [7, 8, 9, 10, 11] := by
  have h := C2_positions (fun _ => 1024) ⟨fun _ => none, fun _ => some 2, fun _ => some 5⟩
    0 1 [10, 11, 12, 13, 14] 7 true (fun _ => 0) (fun _ => rfl)
  exact h.trans (by decide)

/-- C3: for a non-empty token sequence with every engine call succeeding,
the number of records with the emit-logits flag set across the whole call
is one when want_logits_last_token is true and zero when it is false;
every chunk is non-empty, and the final record of the final chunk (the
last record in emission order) carries flag equal to
want_logits_last_token. -/
theorem C3_logits_placement (live : Nat → Int) (R : Registries) (c b : Nat)
    (tokens : List Int) (pos0 : Int) (want : Bool) (rc : Nat → Int)
    (hrc : ∀ k, rc k = 0) (hne : tokens ≠ []) :
    ((decode_tokens_chunked live R (some c) (some b) tokens pos0 want rc).1.flatten.countP
        (fun r => r.logits)) = (if want then 1 else 0) ∧
    (∀ ch ∈ (decode_tokens_chunked live R (some c) (some b) tokens pos0 want rc).1,
      ch ≠ []) ∧
    ((decode_tokens_chunked live R (some c) (some b) tokens pos0 want rc).1.flatten.getLastD
        ⟨0, 0, [0], false⟩).logits = want := by
  obtain ⟨m, hm⟩ : ∃ m, tokens.length = m + 1 := by
    cases tokens with
    | nil => exact absurd rfl hne
    | cons x xs => exact ⟨xs.length, rfl⟩
  rw [decode_chunked_eq live R c b tokens pos0 want rc hne]
  set cp := (chunk_cap (get_ctx_limits live R (some c)).2
    (get_batch_capacity R (some b))).toNat with hcp
  have hcappos : 0 < cp := chunk_cap_toNat_pos _ _
  have hflat := decode_go_flatten cp tokens pos0 want rc hcappos hrc
    tokens.length 0 0 (by omega)
  have hsizes := decode_go_sizes cp tokens pos0 want rc hcappos
    tokens.length 0 0
  refine ⟨?_, ?_, ?_⟩
  · rw [hflat, List.countP_map, Nat.sub_zero]
    cases want with
    | false =>
      simp [chunkRecAt, Function.comp]
    | true =>
      rw [hm, List.range_succ, List.countP_append]
      have h0 : (List.range m).countP
          ((fun r => r.logits) ∘ fun i => chunkRecAt tokens pos0 true (0 + i)) = 0 := by
        rw [List.countP_eq_zero]
        intro i hi
        rw [List.mem_range] at hi
        simp [chunkRecAt, Function.comp]
        omega
      rw [h0]
      simp [chunkRecAt, Function.comp, hm]
  · intro ch hch
    have := (hsizes ch hch).1
    rw [← List.length_pos]
    omega
  · rw [hflat, Nat.sub_zero, hm, List.range_succ, List.map_append]
    simp only [List.map_cons, List.map_nil]
    rw [List.getLastD_concat]
    simp [chunkRecAt, hm]

/-- Witness for C3 at a concrete input: with logits requested, exactly one
record is flagged and it is the last one. -/
theorem C3_logits_placement_witness :
    ((decode_tokens_chunked (fun _ => 1024) ⟨fun _ => none, fun _ => some 2, fun _ => some 5⟩
        (some 0) (some 1) [10, 11, 12, 13, 14] 7 true (fun _ => 0)).1.flatten.countP
      (fun r => r.logits)) = 1 ∧
    ((decode_tokens_chunked (fun _ => 1024) ⟨fun _ => none, fun _ => some 2, fun _ => some 5⟩
        (some 0) (some 1) [10, 11, 12, 13, 14] 7 true (fun _ => 0)).1.flatten.getLastD
      ⟨0, 0, [0], false⟩).logits = true := by
  have h := C3_logits_placement (fun _ => 1024) ⟨fun _ => none, fun _ => some 2, fun _ => some 5⟩
    0 1 [10, 11, 12, 13, 14] 7 true (fun _ => 0) (fun _ => rfl) (by decide)
  exact ⟨h.1.trans (by decide), h.2.2⟩

/-- C9 counterexample: an unregistered but live context handle whose
engine-side llama_n_ctx is 2048 makes get_ctx_limits return (2048, 512),
not the claimed fixed default (1024, 512). -/
theorem C9_counterexample :
    get_ctx_limits (fun _ => 2048) emptyRegs (some 0) ≠ (1024, 512) ∧
    get_ctx_limits (fun _ => 2048) emptyRegs (some 0) = (2048, 512) := by
  decide

/-- C9 (amended): on a handle with no registry entries, get_ctx_limits
returns batch capacity 512 and, as the context length, the live engine
value when positive (1024 only when that value is non-positive); a null
handle yields exactly (1024, 512).  The function is total, so it never
fails. -/
theorem C9_registry_fallback (live : Nat → Int) (R : Registries) (h : Nat)
    (hc : R.ctx_n_ctx h = none) (hb : R.ctx_n_batch h = none) :
    get_ctx_limits live R (some h) = ((if live h ≤ 0 then 1024 else live h), 512) ∧
    get_ctx_limits live R none = (1024, 512) := by
  constructor
  · simp [get_ctx_limits, hc, hb]
  · simp [get_ctx_limits]

/-- Witness for C9 (amended) at a concrete input. -/
theorem C9_registry_fallback_witness :
    emptyRegs.ctx_n_ctx 0 = none ∧
    get_ctx_limits (fun _ => 2048) emptyRegs (some 0) = (2048, 512) := by
  have h := C9_registry_fallback (fun _ => 2048) emptyRegs 0 rfl rfl
  exact ⟨rfl, h.1.trans (by decide)⟩

/-- The prompt budget of completion_init is never below 64 tokens. -/
lemma max_prompt_ge (n_ctx n_len : Int) : 64 ≤ max_prompt n_ctx n_len := by
  unfold max_prompt
  split
  · exact le_max_left ..
  · omega

/-- C4: completion_init computes maxPromptTokens = n_ctx - n_len - 8,
clamping to max(64, n_ctx - 64) when that is below 64 (so it is always at
least 64); a prompt longer than the budget keeps exactly its trailing
maxPromptTokens tokens; with n_ctx = 1024 and n_len = 256 a 2000-token
prompt keeps its trailing 760 tokens; and when every decode call succeeds
the returned primed length is exactly the retained token count. -/
theorem C4_prompt_trim (live : Nat → Int) (R : Registries) (c b : Nat)
    (n_len : Int) (rc : Nat → Int) (hrc : ∀ k, rc k = 0) (tokens : List Int) :
    max_prompt (live c) n_len
      = (if live c - n_len - 8 < 64 then max 64 (live c - 64) else live c - n_len - 8) ∧
    64 ≤ max_prompt (live c) n_len ∧
    ((tokens.length : Int) > max_prompt (live c) n_len →
      trim_tokens (live c) n_len tokens
        = tokens.drop (tokens.length - (max_prompt (live c) n_len).toNat)) ∧
    ((tokens.length : Int) ≤ max_prompt (live c) n_len →
      trim_tokens (live c) n_len tokens = tokens) ∧
    (∀ ts : List Int, ts.length = 2000 →
      trim_tokens 1024 256 ts = ts.drop 1240 ∧ (trim_tokens 1024 256 ts).length = 760) ∧
    completion_init live R (some c) (some b) tokens n_len rc
      = ((trim_tokens (live c) n_len tokens).length : Int) := by
  refine ⟨rfl, max_prompt_ge _ _, ?_, ?_, ?_, ?_⟩
  · intro h
    simp only [trim_tokens]
    rw [if_pos h]
  · intro h
    simp only [trim_tokens]
    rw [if_neg (not_lt.mpr h)]
  · intro ts hts
    have hmp : max_prompt 1024 256 = 760 := by decide
    have hdrop : trim_tokens 1024 256 ts = ts.drop 1240 := by
      simp only [trim_tokens, hmp]
      rw [if_pos]
      · rw [hts]
        congr 1
      · rw [hts]
        decide
    refine ⟨hdrop, ?_⟩
    rw [hdrop, List.length_drop, hts]
  · simp only [completion_init]
    rw [decode_chunked_ok live R c b _ 0 true rc hrc]
    simp

/-- Witness for C4 at a concrete input: a 2000-token prompt against
n_ctx = 1024, n_len = 256 primes exactly 760 tokens. -/
theorem C4_prompt_trim_witness :
    completion_init (fun _ => 1024) emptyRegs (some 0) (some 0)
      (List.replicate 2000 (0 : Int)) 256 (fun _ => 0) = 760 := by
  have h := C4_prompt_trim (fun _ => 1024) emptyRegs 0 0
    256 (fun _ => 0) (fun _ => rfl) (List.replicate 2000 (0 : Int))
  have h2 := (h.2.2.2.2.1 (List.replicate 2000 (0 : Int)) (List.length_replicate ..)).2
  have h3 : completion_init (fun _ => 1024) emptyRegs (some 0) (some 0)
      (List.replicate 2000 (0 : Int)) 256 (fun _ => 0)
      = ((trim_tokens 1024 256 (List.replicate 2000 (0 : Int))).length : Int) :=
    h.2.2.2.2.2
  rw [h3, h2]
  decide

/-- C10 (implicit): completion_init returns 0 both for a prompt that
tokenizes to zero tokens (which succeeds with no engine decode call) and
whenever the chunked prompt decode fails, so the returned primed length
alone cannot distinguish a failed initialization from a successfully
primed empty prompt. -/
theorem C10_init_zero_ambiguity (live : Nat → Int) (R : Registries) (c b : Nat)
    (n_len : Int) (rc : Nat → Int) :
    (completion_init live R (some c) (some b) [] n_len rc = 0 ∧
     decode_tokens_chunked live R (some c) (some b)
       (trim_tokens (live c) n_len []) 0 true rc = ([], true)) ∧
    (∀ tokens : List Int,
      (decode_tokens_chunked live R (some c) (some b)
         (trim_tokens (live c) n_len tokens) 0 true rc).2 = false →
      completion_init live R (some c) (some b) tokens n_len rc = 0) := by
  have hge := max_prompt_ge (live c) n_len
  have htrim : trim_tokens (live c) n_len [] = [] := by
    simp only [trim_tokens]
    rw [if_neg]
    simp only [List.length_nil, Nat.cast_zero]
    omega
  refine ⟨⟨?_, ?_⟩, ?_⟩
  · simp [completion_init, htrim, decode_tokens_chunked]
  · rw [htrim]
    simp [decode_tokens_chunked]
  · intro tokens h
    simp [completion_init, h]

/-- Witness for C10 at concrete inputs: an empty prompt and a failing
decode of a one-token prompt both make completion_init return 0. -/
theorem C10_init_zero_ambiguity_witness :
    completion_init (fun _ => 1024) emptyRegs (some 0) (some 0) [] 16 (fun _ => 1) = 0 ∧
    completion_init (fun _ => 1024) emptyRegs (some 0) (some 0) [5] 16 (fun _ => 1) = 0 := by
  have h := C10_init_zero_ambiguity (fun _ => 1024) emptyRegs 0 0 16 (fun _ => 1)
  exact ⟨h.1.1, h.2 [5] (by decide)⟩

/-- On byte strings without the terminator byte 0, the C scanner and the
plain structural UTF-8 scanner agree. -/
lemma iv_eq_ok : ∀ (l : List Nat) (k : Nat), (0 : Nat) ∉ l → iv_aux k l = ok_aux k l := by
  intro l
  induction l with
  | nil =>
    intro k _
    cases k <;> rfl
  | cons b rest ih =>
    intro k h
    simp only [List.mem_cons, not_or] at h
    cases k with
    | zero =>
      have hbeq : (b == 0) = false := by
        simp only [beq_eq_false_iff_ne, ne_eq]
        intro hb0
        exact h.1 hb0.symm
      simp only [iv_aux, ok_aux, hbeq, Bool.false_eq_true, if_false]
      cases hu : u8cls b with
      | some m => simp only [hu]; exact ih m h.2
      | none => simp only [hu]
    | succ k =>
      simp only [iv_aux, ok_aux]
      by_cases hcc : (b &&& 0xC0 == 0x80) = true
      · rw [if_pos hcc, if_pos hcc]
        exact ih k h.2
      · rw [if_neg hcc, if_neg hcc]

/-- is_valid_utf8 equals structural UTF-8 validity on NUL-free strings. -/
lemma is_valid_eq_ok (l : List Nat) (h : (0 : Nat) ∉ l) : is_valid_utf8 l = utf8_ok l :=
  iv_eq_ok l 0 h

/-- Structural validity is preserved by appending a structurally valid
string at any scanner state. -/
lemma ok_aux_append (ys : List Nat) (hys : utf8_ok ys = true) :
    ∀ (xs : List Nat) (k : Nat), ok_aux k xs = true → ok_aux k (xs ++ ys) = true := by
  intro xs
  induction xs with
  | nil =>
    intro k h
    cases k with
    | zero => simpa using hys
    | succ k => simp [ok_aux] at h
  | cons b rest ih =>
    intro k h
    cases k with
    | zero =>
      simp only [List.cons_append, ok_aux] at h ⊢
      cases hu : u8cls b with
      | some m =>
        simp only [hu] at h ⊢
        exact ih m h
      | none =>
        simp only [hu] at h
        exact absurd h (by simp)
    | succ k =>
      simp only [List.cons_append, ok_aux] at h ⊢
      by_cases hcc : (b &&& 0xC0 == 0x80) = true
      · rw [if_pos hcc] at h ⊢
        exact ih k h
      · rw [if_neg hcc] at h
        exact absurd h (by simp)

/-- If a concatenation is structurally valid and its first part is
structurally valid from the same scanner state, the rest is valid too. -/
lemma ok_aux_append_right (ys : List Nat) :
    ∀ (xs : List Nat) (k : Nat), ok_aux k (xs ++ ys) = true → ok_aux k xs = true →
      utf8_ok ys = true := by
  intro xs
  induction xs with
  | nil =>
    intro k h1 h2
    cases k with
    | zero => simpa using h1
    | succ k => simp [ok_aux] at h2
  | cons b rest ih =>
    intro k h1 h2
    cases k with
    | zero =>
      simp only [List.cons_append, ok_aux] at h1 h2
      cases hu : u8cls b with
      | some m =>
        simp only [hu] at h1 h2
        exact ih m h1 h2
      | none =>
        simp only [hu] at h2
        exact absurd h2 (by simp)
    | succ k =>
      simp only [List.cons_append, ok_aux] at h1 h2
      by_cases hcc : (b &&& 0xC0 == 0x80) = true
      · rw [if_pos hcc] at h1 h2
        exact ih k h1 h2
      · rw [if_neg hcc] at h2
        exact absurd h2 (by simp)

/-- The accumulator conserves bytes: emitted fragments plus the final
pending buffer are the initial buffer plus all input fragments. -/
lemma runAcc_total : ∀ (fs : List (List Nat)) (buf : List Nat),
    (runAcc buf fs).1.flatten ++ (runAcc buf fs).2 = buf ++ fs.flatten := by
  intro fs
  induction fs with
  | nil =>
    intro buf
    simp [runAcc]
  | cons f fs ih =>
    intro buf
    simp only [runAcc, List.flatten_cons]
    by_cases hv : is_valid_utf8 (buf ++ f) = true
    · rw [if_pos hv]
      simp only [List.flatten_cons, List.append_assoc]
      rw [ih []]
      simp
    · rw [if_neg hv]
      simp only [List.flatten_cons, List.nil_append]
      rw [ih (buf ++ f)]
      simp

/-- Every fragment the accumulator emits passed is_valid_utf8, so on
NUL-free input the emitted text is structurally valid. -/
lemma runAcc_emitted_ok : ∀ (fs : List (List Nat)) (buf : List Nat),
    (0 : Nat) ∉ buf ++ fs.flatten → utf8_ok ((runAcc buf fs).1.flatten) = true := by
  intro fs
  induction fs with
  | nil =>
    intro buf _
    simp only [runAcc, List.flatten_nil]
    rfl
  | cons f fs ih =>
    intro buf h0
    simp only [List.flatten_cons] at h0
    have h0' : (0 : Nat) ∉ (buf ++ f) ++ fs.flatten := by
      simpa [List.append_assoc] using h0
    have hbf : (0 : Nat) ∉ buf ++ f := by
      intro hmem
      exact h0' (List.mem_append_left _ hmem)
    have hfl : (0 : Nat) ∉ fs.flatten := by
      intro hmem
      exact h0' (List.mem_append_right _ hmem)
    simp only [runAcc]
    by_cases hv : is_valid_utf8 (buf ++ f) = true
    · rw [if_pos hv]
      simp only [List.flatten_cons]
      have h1 : utf8_ok (buf ++ f) = true := by
        rw [← is_valid_eq_ok (buf ++ f) hbf]
        exact hv
      have h2 : utf8_ok ((runAcc [] fs).1.flatten) = true := by
        apply ih []
        simpa using hfl
      exact ok_aux_append _ h2 _ 0 h1
    · rw [if_neg hv]
      simp only [List.flatten_cons, List.nil_append]
      apply ih (buf ++ f)
      exact h0'

/-- After at least one ingest, the pending buffer is either empty or
fails is_valid_utf8 (it is retained only when invalid). -/
lemma runAcc_leftover : ∀ (fs : List (List Nat)) (buf : List Nat), fs ≠ [] →
    (runAcc buf fs).2 = [] ∨ is_valid_utf8 ((runAcc buf fs).2) = false := by
  intro fs
  induction fs with
  | nil =>
    intro buf h
    exact absurd rfl h
  | cons f fs ih =>
    intro buf _
    by_cases hfs : fs = []
    · subst hfs
      by_cases hv : is_valid_utf8 (buf ++ f) = true
      · left
        simp [runAcc, hv]
      · right
        simp only [runAcc, if_neg hv]
        simpa using hv
    · by_cases hv : is_valid_utf8 (buf ++ f) = true
      · simp only [runAcc, if_pos hv]
        exact ih [] hfs
      · simp only [runAcc, if_neg hv]
        exact ih (buf ++ f) hfs

/-- C8 counterexample: the byte string 00 C2 80 is well-formed UTF-8
(U+0000 then U+0080), yet splitting it as [00 C2], [80] loses the tail:
the C validity check stops at the embedded NUL, so the dangling lead byte
C2 is emitted as if complete and the continuation byte 80 is then stuck in
the buffer forever, so the concatenated output is not the original text. -/
theorem C8_counterexample :
    is_valid_utf8 [0, 194, 128] = true ∧
    ([[0, 194], [128]] : List (List Nat)).flatten = [0, 194, 128] ∧
    (runAcc [] [[0, 194], [128]]).1.flatten ≠ [0, 194, 128] := by
  decide

/-- C8 (amended): for every well-formed UTF-8 text containing no 0x00
byte and every split of its bytes into an ordered list of fragments,
feeding the fragments one at a time to the accumulator yields the original
text exactly as the concatenation of the emitted fragments in order. -/
theorem C8_accumulator_roundtrip (frags : List (List Nat))
    (h0 : (0 : Nat) ∉ frags.flatten) (hv : is_valid_utf8 frags.flatten = true) :
    (runAcc [] frags).1.flatten = frags.flatten := by
  cases frags with
  | nil => simp [runAcc]
  | cons f fs =>
    have htot := runAcc_total (f :: fs) []
    rw [List.nil_append] at htot
    have hok_emit : utf8_ok ((runAcc [] (f :: fs)).1.flatten) = true :=
      runAcc_emitted_ok (f :: fs) [] (by simpa using h0)
    have hok_text : utf8_ok ((f :: fs).flatten) = true := by
      rw [← is_valid_eq_ok _ h0]
      exact hv
    have hokL : utf8_ok ((runAcc [] (f :: fs)).2) = true := by
      apply ok_aux_append_right _ _ 0 _ hok_emit
      rw [htot]
      exact hok_text
    have h0L : (0 : Nat) ∉ (runAcc [] (f :: fs)).2 := by
      intro hmem
      apply h0
      rw [← htot]
      exact List.mem_append_right _ hmem
    have hivL : is_valid_utf8 ((runAcc [] (f :: fs)).2) = true := by
      rw [is_valid_eq_ok _ h0L]
      exact hokL
    rcases runAcc_leftover (f :: fs) [] (by simp) with hL | hL
    · rw [hL] at htot
      simpa using htot
    · rw [hivL] at hL
      exact absurd hL (by simp)

/-- Witness for C8 (amended) at a concrete input: the Euro sign bytes
E2 82 AC split across two fragments round-trip exactly. -/
theorem C8_accumulator_roundtrip_witness :
    (0 : Nat) ∉ ([[226, 130], [172]] : List (List Nat)).flatten ∧
    (runAcc [] [[226, 130], [172]]).1.flatten = [226, 130, 172] := by
  have h := C8_accumulator_roundtrip [[226, 130], [172]] (by decide) (by decide)
  exact ⟨by decide, h.trans (by decide)⟩

/-- C5 counterexample: a normal end-of-generation stop (EOG token
sampled) and an engine decode failure (non-zero return code after a
non-stop token) both make completion_loop return the null fragment, so
the step's return value does not distinguish engine failure from
generation exhaustion. -/
theorem C5_counterexample :
    (completion_loop 1024 (fun _ => true) 2 3 (fun _ => [65]) 0
      (some 0) (some 0) (some 0) (some 0) 100 ⟨5, []⟩).1 = none ∧
    (completion_loop 1024 (fun _ => false) 2 3 (fun _ => [65]) 1
      (some 0) (some 0) (some 0) (some 0) 100 ⟨5, []⟩).1 = none := by
  decide

/-- C5 (amended): with a valid cursor, completion_loop reports a normal
end-of-generation stop (EOG token, cursor equal to the target length, or
EOT token) as the null result, and it reports a failing single-token
decode as that same null result; the return value alone cannot separate
the two cases. -/
theorem C5_failure_indistinct (n_ctx : Int) (is_eog : Int → Bool) (eot sampled : Int)
    (piece : Int → List Nat) (rc : Int) (c b s v : Nat) (n_len : Int) (st : LoopState)
    (hin : 0 ≤ st.n_cur ∧ st.n_cur < n_ctx) :
    ((is_eog sampled ∨ st.n_cur = n_len ∨ sampled = eot) →
      (completion_loop n_ctx is_eog eot sampled piece rc
        (some c) (some b) (some s) (some v) n_len st).1 = none) ∧
    (¬ (is_eog sampled ∨ st.n_cur = n_len ∨ sampled = eot) → rc ≠ 0 →
      (completion_loop n_ctx is_eog eot sampled piece rc
        (some c) (some b) (some s) (some v) n_len st).1 = none) := by
  have hguard : ¬ (st.n_cur < 0 ∨ st.n_cur ≥ n_ctx) := by omega
  constructor
  · intro hstop
    simp only [completion_loop]
    rw [if_neg hguard, if_pos hstop]
  · intro hstop hrc
    simp only [completion_loop]
    rw [if_neg hguard, if_neg hstop, if_pos hrc]

/-- Witness for C5 (amended) at concrete inputs: a stop case and a
decode-failure case both return the null fragment. -/
theorem C5_failure_indistinct_witness :
    (completion_loop 1024 (fun _ => true) 2 3 (fun _ => [65]) 0
      (some 0) (some 0) (some 0) (some 0) 100 ⟨5, []⟩).1 = none ∧
    (completion_loop 1024 (fun _ => false) 2 7 (fun _ => [65]) 1
      (some 0) (some 0) (some 0) (some 0) 100 ⟨5, []⟩).1 = none := by
  constructor
  · exact (C5_failure_indistinct 1024 (fun _ => true) 2 3 (fun _ => [65]) 0
      0 0 0 0 100 ⟨5, []⟩ (by decide)).1 (by decide)
  · exact (C5_failure_indistinct 1024 (fun _ => false) 2 7 (fun _ => [65]) 1
      0 0 0 0 100 ⟨5, []⟩ (by decide)).2 (by decide) (by decide)

/-- C7 counterexample: a failing single-token decode (non-zero return
code) makes completion_loop report failure (null result), yet the
externally held cursor and the pending-text buffer are not what they were
before the call: the cursor moved from 5 to 6 and the buffer now holds the
incomplete UTF-8 byte C2. -/
theorem C7_counterexample :
    (completion_loop 1024 (fun _ => false) 2 3 (fun _ => [194]) 1
      (some 0) (some 0) (some 0) (some 0) 100 ⟨5, []⟩).1 = none ∧
    (completion_loop 1024 (fun _ => false) 2 3 (fun _ => [194]) 1
      (some 0) (some 0) (some 0) (some 0) 100 ⟨5, []⟩).2 ≠ (⟨5, []⟩ : LoopState) := by
  decide

/-- C7 (amended): when the single-token decode fails, completion_loop
returns the null failure result, but the state this layer manages has
already been mutated: the cursor is incremented by one and the pending
buffer holds the appended token piece (cleared when it was emitted as
complete UTF-8); the operation is not all-or-nothing. -/
theorem C7_failure_mutates_state (n_ctx : Int) (is_eog : Int → Bool) (eot sampled : Int)
    (piece : Int → List Nat) (rc : Int) (c b s v : Nat) (n_len : Int) (st : LoopState)
    (hin : 0 ≤ st.n_cur ∧ st.n_cur < n_ctx)
    (hstop : ¬ (is_eog sampled ∨ st.n_cur = n_len ∨ sampled = eot))
    (hrc : rc ≠ 0) :
    completion_loop n_ctx is_eog eot sampled piece rc
      (some c) (some b) (some s) (some v) n_len st
      = (none, ⟨st.n_cur + 1,
          if is_valid_utf8 (st.cached ++ piece sampled) then []
          else st.cached ++ piece sampled⟩) := by
  have hguard : ¬ (st.n_cur < 0 ∨ st.n_cur ≥ n_ctx) := by omega
  simp only [completion_loop]
  rw [if_neg hguard, if_neg hstop, if_pos hrc]

/-- Witness for C7 (amended) at a concrete input. -/
theorem C7_failure_mutates_state_witness :
    completion_loop 2048 (fun _ => false) 2 3 (fun _ => [194]) 5
      (some 1) (some 1) (some 1) (some 1) 50 ⟨7, []⟩
      = (none, ⟨8, [194]⟩) := by
  have h := C7_failure_mutates_state 2048 (fun _ => false) 2 3 (fun _ => [194]) 5
    1 1 1 1 50 ⟨7, []⟩ (by decide) (by decide) (by decide)
  exact h.trans (by decide)

/-- C6: evaluating new_batch at a failing allocation sequence (the second
malloc, the position buffer, fails after the first, the token buffer,
succeeded) shows the out-of-memory path signals failure and leaves no
registry entry, but the previously successful allocation is still live
when the call returns: the failure path releases nothing, so the token
buffer leaks, contradicting the claim that every earlier allocation is
released before failure is signaled. -/
theorem C6_partial_alloc_leak :
    new_batch (fun i => i == 0) 1 0 1 = (none, [0], false) ∧
    (new_batch (fun i => i == 0) 1 0 1).2.1 ≠ [] := by
  decide
